import Mathlib

/-!
Verification of the temporal-graph time-semantics core of Raphtory.

The definitions below are a shallow embedding of the source files
`raphtory/src/db/graph/views/deletion_graph.rs` (persistent time semantics)
and `src/tvec.rs` (temporal vector).  Supporting containers whose sources are
not part of the core review set (TimeIndex, EdgeStore iterators, TCell/TProp)
are modelled from the specification; each such definition says so in its doc
comment.  Machine integers are embedded as `Int` with the explicit i64 bounds
`intMin`/`intMax`; saturating arithmetic is made explicit.
-/

/-- Smallest i64 value, `i64::MIN`. -/
def intMin : Int := -(2 ^ 63)

/-- Largest i64 value, `i64::MAX`. -/
def intMax : Int := 2 ^ 63 - 1

/-- Saturating increment on i64: `t.saturating_add(1)`. -/
def satAdd1 (t : Int) : Int := min (t + 1) intMax

/-- A time-index entry `(t, seq)`: a timestamp together with the per-graph
sequence number that disambiguates events at the same `t`
(`TimeIndexEntry` in the source; ordering is lexicographic). -/
structure TIE where
  t : Int
  s : Nat
deriving DecidableEq

/-- Lexicographic strict order on time-index entries (derived `Ord` on the
Rust pair struct). -/
def tieLt (a b : TIE) : Bool :=
  decide (a.t < b.t ∨ (a.t = b.t ∧ a.s < b.s))

/-- Lexicographic order on time-index entries. -/
def tieLe (a b : TIE) : Bool :=
  decide (a.t < b.t ∨ (a.t = b.t ∧ a.s ≤ b.s))

/-- `TimeIndexEntry::start(t)`, the smallest entry with timestamp `t`;
this is what the `impl From<i64> for TimeIndexEntry` conversion produces. -/
def tieStart (t : Int) : TIE := ⟨t, 0⟩

/-- `TimeIndexEntry::MAX`. -/
def tieMaxEntry : TIE := ⟨intMax, 2 ^ 64 - 1⟩

/-- Modelled from the spec: a `TimeIndex` (§4.1) is an ordered set of
time-index entries; we embed it as the list of its entries. -/
abbrev TimeIndex := List TIE

/-- The smaller of two entries. -/
def tieMin (a b : TIE) : TIE := if tieLt b a then b else a

/-- The larger of two entries. -/
def tieMax (a b : TIE) : TIE := if tieLt a b then b else a

/-- Modelled from the spec: `TimeIndex::first`, the least entry of the set
(`None` when empty). -/
def tiFirst : TimeIndex → Option TIE
  | [] => none
  | x :: xs => some (xs.foldl tieMin x)

/-- Modelled from the spec: `TimeIndex::last`, the greatest entry of the set
(`None` when empty). -/
def tiLast : TimeIndex → Option TIE
  | [] => none
  | x :: xs => some (xs.foldl tieMax x)

/-- `first_t`: timestamp component of the first entry. -/
def tiFirstT (A : TimeIndex) : Option Int := (tiFirst A).map TIE.t

/-- `last_t`: timestamp component of the last entry. -/
def tiLastT (A : TimeIndex) : Option Int := (tiLast A).map TIE.t

/-- Modelled from the spec: `TimeIndex::range(lo..hi)` with i64 bounds keeps
the entries whose timestamp lies in the closed-open window `[lo, hi)`
(the bounds are converted with `TimeIndexEntry::start`, so an entry is kept
iff `(lo, 0) ≤ e < (hi, 0)`, which is `lo ≤ e.t < hi`). -/
def tiRange (A : TimeIndex) (lo hi : Int) : TimeIndex :=
  A.filter (fun x => decide (lo ≤ x.t) && decide (x.t < hi))

/-- Modelled from the spec: `TimeIndex::active(lo..hi)`, true when some entry
lies in the window. -/
def tiActive (A : TimeIndex) (lo hi : Int) : Bool :=
  !(tiRange A lo hi).isEmpty

/-- Rust `Option<TimeIndexEntry>` comparison `x > y` (`None` is less than
any `Some`). -/
def optTieGt : Option TIE → Option TIE → Bool
  | some a, some b => tieLt b a
  | some _, none => true
  | none, _ => false

/-- Rust `Option<i64>` comparison `x > y` (`None` is less than any `Some`). -/
def optIntGt : Option Int → Option Int → Bool
  | some a, some b => decide (b < a)
  | some _, none => true
  | none, _ => false

/-- `alive_before` from `deletion_graph.rs`: is the edge with additions
index `additions` and deletions index `deletions` in force strictly
before `t`? -/
def alive_before (additions deletions : TimeIndex) (t : Int) : Bool :=
  let firstAddition := tiFirst additions
  let firstDeletion := tiFirst deletions
  let lastAdditionBeforeStart := tiLast (tiRange additions intMin t)
  let lastDeletionBeforeStart := tiLast (tiRange deletions intMin t)
  let onlyDeleted :=
    match firstAddition, firstDeletion with
    | some a, some d => tieLt d a && tieLe (tieStart t) d
    | none, some d => tieLe (tieStart t) d
    | some _, none => false
    | none, none => false
  onlyDeleted || optTieGt lastAdditionBeforeStart lastDeletionBeforeStart

/-- `alive_at` from `deletion_graph.rs`: is the edge in force at `t`
itself?  The point lookups use the saturating window
`t..t.saturating_add(1)`. -/
def alive_at (additions deletions : TimeIndex) (t : Int) : Bool :=
  let deletedAtStart :=
    match tiFirst (tiRange deletions t (satAdd1 t)),
          tiFirst (tiRange additions t (satAdd1 t)) with
    | some d, some a => tieLt d a
    | some _, none => true
    | _, _ => false
  !deletedAtStart && alive_before additions deletions t

/-- A layer selection (`LayerIds` in the source): none, all, a single layer
id, or a set of layer ids. -/
inductive LayerIds where
  | noLayers
  | all
  | one (id : Nat)
  | multiple (ids : List Nat)
deriving DecidableEq

/-- Modelled from the spec: an edge record keeps, per layer, an additions
index and a deletions index (§3: "per-layer additions (TimeIndex); per-layer
deletions (TimeIndex); ... absent layers return empty histories").  We embed
an `EdgeStore` as the list of its per-layer `(additions, deletions)` pairs,
indexed by layer id. -/
abbrev EdgeStore := List (TimeIndex × TimeIndex)

/-- Modelled from the spec: `EdgeStore::updates_iter(layer_ids)` yields the
lazy sequence of `(layer_id, additions, deletions)` for the selected layers
(§4.4). -/
def updatesIter (ls : LayerIds) (e : EdgeStore) : List (Nat × TimeIndex × TimeIndex) :=
  match ls with
  | .noLayers => []
  | .all => e.enum
  | .one i =>
    match e.get? i with
    | some p => [(i, p)]
    | none => []
  | .multiple ids => ids.filterMap (fun i => (e.get? i).map (fun p => (i, p)))

/-- The selected per-layer `(additions, deletions)` pairs. -/
def selectLayers (ls : LayerIds) (e : EdgeStore) : List (TimeIndex × TimeIndex) :=
  (updatesIter ls e).map Prod.snd

/-- Modelled from the spec: `EdgeStore::additions_iter(layer_ids)`, the
additions indexes of the selected layers. -/
def additionsIter (ls : LayerIds) (e : EdgeStore) : List TimeIndex :=
  (selectLayers ls e).map Prod.fst

/-- Modelled from the spec: `EdgeStore::deletions_iter(layer_ids)`, the
deletions indexes of the selected layers. -/
def deletionsIter (ls : LayerIds) (e : EdgeStore) : List TimeIndex :=
  (selectLayers ls e).map Prod.snd

/-- The `EitherOrBoth` shape produced by itertools' `zip_longest`. -/
inductive EitherOrBoth (α β : Type) where
  | both (a : α) (b : β)
  | left (a : α)
  | right (b : β)

/-- itertools' `zip_longest` on lists. -/
def zipLongest {α β : Type} : List α → List β → List (EitherOrBoth α β)
  | [], ys => ys.map EitherOrBoth.right
  | x :: xs, [] => EitherOrBoth.left x :: xs.map EitherOrBoth.left
  | x :: xs, y :: ys => EitherOrBoth.both x y :: zipLongest xs ys

/-- `edge_alive_at_start` from `deletion_graph.rs`: the zip of the selected
additions and deletions indexes, folded with a disjunction of per-pair
aliveness at `t`. -/
def edge_alive_at_start (e : EdgeStore) (t : Int) (ls : LayerIds) : Bool :=
  (zipLongest (additionsIter ls e) (deletionsIter ls e)).any fun z =>
    match z with
    | .both additions deletions => alive_at additions deletions t
    | .left additions =>
      match tiFirstT additions with
      | some firstT => decide (firstT ≤ t)
      | none => false
    | .right deletions => optIntGt (tiFirstT deletions) (some t)

/-- `edge_alive_at_end` from `deletion_graph.rs`. -/
def edge_alive_at_end (e : EdgeStore) (t : Int) (ls : LayerIds) : Bool :=
  (zipLongest (additionsIter ls e) (deletionsIter ls e)).any fun z =>
    match z with
    | .both additions deletions => alive_before additions deletions t
    | .left additions => tiActive additions intMin t
    | .right deletions => tiActive deletions t intMax

/-- Modelled from the spec: `EdgeStore::active(layer_ids, w)`, true when a
selected layer has an addition inside the window (§4.4). -/
def edgeActive (e : EdgeStore) (ls : LayerIds) (ws we : Int) : Bool :=
  (additionsIter ls e).any (fun A => tiActive A ws we)

/-- `include_edge_window` from `deletion_graph.rs`: the edge is kept in the
windowed view when it is active during the window or alive at its start. -/
def include_edge_window (e : EdgeStore) (ws we : Int) (ls : LayerIds) : Bool :=
  edgeActive e ls ws we || edge_alive_at_start e ws ls

/-- `include_node_window` from `deletion_graph.rs`: a node is kept when its
first timestamp exists and is at most the window end (the window start and
the layer selection are ignored by the source). -/
def include_node_window (timestamps : TimeIndex) (_ws we : Int) (_ls : LayerIds) : Bool :=
  match tiFirstT timestamps with
  | some t => decide (t ≤ we)
  | none => false

/-- Additions of layer `i`, `edge.additions.get(i).unwrap_or(&TimeIndex::Empty)`. -/
def getAdditions (e : EdgeStore) (i : Nat) : TimeIndex :=
  ((e.get? i).map Prod.fst).getD []

/-- Deletions of layer `i`, `edge.deletions.get(i).unwrap_or(&TimeIndex::Empty)`. -/
def getDeletions (e : EdgeStore) (i : Nat) : TimeIndex :=
  ((e.get? i).map Prod.snd).getD []

/-- The `LayerIds::One` branch of `edge_exploded_count`: the number of
additions, plus one when the first deletion precedes the first addition
(absent entries count as `TimeIndexEntry::MAX`). -/
def edgeExplodedCountOne (e : EdgeStore) (i : Nat) : Nat :=
  let additions := getAdditions e i
  let deletions := getDeletions e i
  let aFirst := (tiFirst additions).getD tieMaxEntry
  let dFirst := (tiFirst deletions).getD tieMaxEntry
  if tieLt dFirst aFirst then additions.length + 1 else additions.length

/-- `edge_exploded_count` from `deletion_graph.rs`; `nLayers` stands for
`self.unfiltered_num_layers()`. -/
def edge_exploded_count (nLayers : Nat) (e : EdgeStore) (ls : LayerIds) : Nat :=
  match ls with
  | .noLayers => 0
  | .all => ((List.range nLayers).map (edgeExplodedCountOne e)).sum
  | .one i => edgeExplodedCountOne e i
  | .multiple ids => (ids.map (edgeExplodedCountOne e)).sum

/-- The `LayerIds::One` branch of `edge_exploded_count_window`: the number
of additions inside the window, plus one when the edge is alive at the
window start. -/
def edgeExplodedCountWindowOne (e : EdgeStore) (i : Nat) (ws we : Int) : Nat :=
  let additions := getAdditions e i
  let deletions := getDeletions e i
  (tiRange additions ws we).length + (if alive_at additions deletions ws then 1 else 0)

/-- `edge_exploded_count_window` from `deletion_graph.rs`.  The
`LayerIds::Multiple` branch of the source delegates to the unwindowed
`edge_exploded_count`, unlike the `All` branch which windows each layer;
the embedding mirrors this. -/
def edge_exploded_count_window (nLayers : Nat) (e : EdgeStore) (ls : LayerIds)
    (ws we : Int) : Nat :=
  match ls with
  | .noLayers => 0
  | .all => ((List.range nLayers).map (fun i => edgeExplodedCountWindowOne e i ws we)).sum
  | .one i => edgeExplodedCountWindowOne e i ws we
  | .multiple ids => (ids.map (edgeExplodedCountOne e)).sum

/-- Modelled from the spec: the event-semantics exploded enumeration behind
`self.0.edge_exploded` — one time-and-layer pinned reference per addition
entry of each selected layer (§4.7); references are enumerated layer by
layer. -/
def eventEdgeExploded (e : EdgeStore) (ls : LayerIds) : List (TIE × Nat) :=
  (updatesIter ls e).flatMap (fun u => u.2.1.map (fun a => (a, u.1)))

/-- Modelled from the spec: the event-semantics windowed exploded
enumeration behind `self.0.edge_window_exploded` — one reference per
addition entry inside the window. -/
def eventEdgeWindowExploded (e : EdgeStore) (ws we : Int) (ls : LayerIds) :
    List (TIE × Nat) :=
  (updatesIter ls e).flatMap (fun u => (tiRange u.2.1 ws we).map (fun a => (a, u.1)))

/-- `edge_exploded` from `deletion_graph.rs`: a synthetic reference pinned
at `i64::MIN` for every selected layer whose first deletion precedes its
first addition (or that has deletions and no additions), followed by the
event-semantics enumeration.  A reference is embedded as its pinned
`(entry, layer)` pair. -/
def edge_exploded (e : EdgeStore) (ls : LayerIds) : List (TIE × Nat) :=
  let aliveLayers : List Nat :=
    (updatesIter ls e).filterMap (fun u =>
      match tiFirst u.2.1, tiFirst u.2.2 with
      | some a, some d => if tieLt d a then some u.1 else none
      | none, some _ => some u.1
      | _, _ => none)
  aliveLayers.map (fun l => (⟨intMin, 0⟩, l)) ++ eventEdgeExploded e ls

/-- `edge_window_exploded` from `deletion_graph.rs`: empty for a degenerate
window; otherwise a synthetic reference pinned at `w.start` for every
selected layer alive at `w.start`, followed by the event-semantics windowed
enumeration. -/
def edge_window_exploded (e : EdgeStore) (ws we : Int) (ls : LayerIds) :
    List (TIE × Nat) :=
  if we ≤ ws then []
  else
    let aliveLayers : List Nat :=
      (updatesIter ls e).filterMap (fun u =>
        if alive_at u.2.1 u.2.2 ws then some u.1 else none)
    aliveLayers.map (fun l => (⟨ws, 0⟩, l)) ++ eventEdgeWindowExploded e ws we ls

/-- Modelled from the spec: `edge_additions(e, layer_ids)`, the logical
union of the selected layers' additions indexes (§4.4). -/
def edgeAdditions (e : EdgeStore) (ls : LayerIds) : TimeIndex :=
  (additionsIter ls e).flatten

/-- Modelled from the spec: `edge_deletions(e, layer_ids)`, the logical
union of the selected layers' deletions indexes (§4.4). -/
def edgeDeletions (e : EdgeStore) (ls : LayerIds) : TimeIndex :=
  (deletionsIter ls e).flatten

/-- `edge_earliest_time` from `deletion_graph.rs`; `pinned` is `e.time()`
of the edge reference (`None` for a bare reference). -/
def edge_earliest_time (pinned : Option TIE) (e : EdgeStore) (ls : LayerIds) :
    Option Int :=
  match pinned with
  | some ti => some ti.t
  | none =>
    if edge_alive_at_start e intMin ls then some intMin
    else tiFirstT (edgeAdditions e ls)

/-- `edge_latest_time` from `deletion_graph.rs`. -/
def edge_latest_time (pinned : Option TIE) (e : EdgeStore) (ls : LayerIds) :
    Option Int :=
  match pinned with
  | some ti =>
    some (min ((tiFirstT (tiRange (edgeAdditions e ls) (satAdd1 ti.t) intMax)).getD intMax)
      ((tiFirstT (tiRange (edgeDeletions e ls) (satAdd1 ti.t) intMax)).getD intMax))
  | none =>
    if edge_alive_at_end e intMax ls then some intMax
    else tiLastT (edgeDeletions e ls)

/-- Modelled from the spec: a temporal-property log (TProp, §4.2) is the
ordered sequence of `(write entry, value)` pairs of one property. -/
abbrev PropLog := List (TIE × String)

/-- The pair with the larger write entry of a nonempty log (`None` when
empty). -/
def propLastEntry : PropLog → Option (TIE × String)
  | [] => none
  | x :: xs => some (xs.foldl (fun a b => if tieLt a.1 b.1 then b else a) x)

/-- Modelled from the spec: `TProp::last_before(u)`, the write with the
largest entry strictly below `TimeIndexEntry::start(u)` — that is, with
write-time `< u` (§4.2). -/
def propLastBefore (p : PropLog) (u : Int) : Option (TIE × String) :=
  propLastEntry (p.filter (fun x => decide (x.1.t < u)))

/-- Modelled from the spec: `TProp::iter_window(lo..hi)`, the writes with
time in `[lo, hi)` (§4.2). -/
def propIterWindow (p : PropLog) (lo hi : Int) : PropLog :=
  p.filter (fun x => decide (lo ≤ x.1.t) && decide (x.1.t < hi))

/-- `temporal_edge_prop_vec_window` from `deletion_graph.rs`: when the edge
is alive at the window start the log gets a synthetic tick at `start`
carrying `last_before(start.saturating_add(1))`, followed by the writes in
`[start.saturating_add(1), stop)`; otherwise it is just the writes in
`[start, stop)`. -/
def temporal_edge_prop_vec_window (e : EdgeStore) (p : PropLog)
    (start stop : Int) (ls : LayerIds) : List (Int × String) :=
  if edge_alive_at_start e start ls then
    ((propLastBefore p (satAdd1 start)).map (fun x => (start, x.2))).toList
      ++ (propIterWindow p (satAdd1 start) stop).map (fun x => (x.1.t, x.2))
  else
    (propIterWindow p start stop).map (fun x => (x.1.t, x.2))

/-- Modelled from the spec: a `TCell` stores one or more `(time, value)`
pairs for a single slot; `set(t, v)` appends a new version (§4.2).  Times in
`tvec.rs` are `u64`, embedded as `Nat`. -/
abbrev TCell (α : Type) := List (Nat × α)

/-- Modelled from the spec: `TCell::set(t, v)` appends the pair as a new
version of the slot (§4.2). -/
def TCell.set {α : Type} (c : TCell α) (t : Nat) (a : α) : TCell α :=
  c ++ [(t, a)]

/-- `DefaultTVec` from `tvec.rs`: empty, a single slot, or a vector of
slots with a secondary map from time to the slot ids written at that time
(the `BTreeMap<u64, RoaringTreemap>` is embedded as an association list of
id lists). -/
inductive DefaultTVec (α : Type) where
  | empty
  | one (c : TCell α)
  | vec (vs : List (TCell α)) (tIndex : List (Nat × List Nat))

/-- The `t_index.entry(t).and_modify(push i).or_insert(singleton i)` update
of `tvec.rs`. -/
def tIndexAdd : List (Nat × List Nat) → Nat → Nat → List (Nat × List Nat)
  | [], t, i => [(t, [i])]
  | (t0, s) :: rest, t, i =>
    if t0 = t then (t0, s ++ [i]) :: rest else (t0, s) :: tIndexAdd rest t i

/-- `DefaultTVec::insert(t, a, i)` from `tvec.rs`, with panics embedded as
`none`: the `Empty` branch is the explicit
`panic!("insertion index (is {i}) should be <= len (is 0)")`, and the `Vec`
branch indexes `vs[i]`, which panics when `i` is out of bounds.  The `One`
branch re-stamps the single slot and ignores `i`. -/
def DefaultTVec.insert {α : Type} (tv : DefaultTVec α) (t : Nat) (a : α)
    (i : Nat) : Option (DefaultTVec α) :=
  match tv with
  | .empty => none
  | .one c => some (.one (TCell.set c t a))
  | .vec vs tIndex =>
    if h : i < vs.length then
      some (.vec (vs.set i (TCell.set (vs.get ⟨i, h⟩) t a)) (tIndexAdd tIndex t i))
    else none

/-- The edge of scenario S2: `delete_edge(10, 3, 4)` with no prior
addition — a single (default) layer with an empty additions index and one
deletion entry at `t = 10`. -/
def edgeS2 : EdgeStore := [([], [⟨10, 0⟩])]

/-- The edge of scenario S6: three deletions at `t = 1, 2, 3` on layers
with ids 1, 2, 3 (layer 0 is the untouched default layer), no additions. -/
def edgeS6 : EdgeStore := [([], []), ([], [⟨1, 0⟩]), ([], [⟨2, 1⟩]), ([], [⟨3, 2⟩])]

/-- The edge of scenario S5: added at `t = 0`, updated at `t = 11`,
deleted at `t = 20`, all on the default layer. -/
def edgeS5 : EdgeStore := [([⟨0, 0⟩, ⟨11, 1⟩], [⟨20, 2⟩])]

/-- The property log of scenario S5: `"a"` written at `t = 0` and `"b"`
at `t = 11`. -/
def propS5 : PropLog := [(⟨0, 0⟩, "a"), (⟨11, 1⟩, "b")]

/-- A two-layer edge with one addition at `t = 0` on each layer and no
deletions; used to exercise the `LayerIds::Multiple` branch of
`edge_exploded_count_window`. -/
def edgeTwoLayers : EdgeStore := [([⟨0, 0⟩], []), ([⟨0, 1⟩], [])]

/-- An edge alive at `i64::MAX` (one addition at `t = 0`, no deletions). -/
def edgeAliveAtMax : EdgeStore := [([⟨0, 0⟩], [])]

/-- A property log with a write at `t = 0` and a write at `t = i64::MAX`. -/
def propAtMax : PropLog := [(⟨0, 0⟩, "a"), (⟨intMax, 1⟩, "b")]

/-- Specification side, the "only-deleted" case of `alive_before` as the
claim words it: the first entry of `D` exists, is at least `t`, and either
`A` is empty or the first entry of `D` precedes the first entry of `A`. -/
def firstDelCase (A D : TimeIndex) (t : Int) : Prop :=
  ∃ d, tiFirst D = some d ∧ t ≤ d.t
    ∧ (A = [] ∨ ∃ a, tiFirst A = some a ∧ tieLt d a = true)

/-- Specification side, the second case of `alive_before` as the claim
words it: the last entry of `A` strictly before `t` is greater than the
last entry of `D` strictly before `t`, an absent entry being smaller than
any present entry. -/
def lastBeforeGt (A D : TimeIndex) (t : Int) : Prop :=
  optTieGt (tiLast (A.filter (fun x => decide (x.t < t))))
    (tiLast (D.filter (fun x => decide (x.t < t)))) = true

/-- Specification side, "deleted at `t`" over the window `[lo, hi)` as the
claim words it: the first deletion entry in the window exists and either
there is no addition entry in the window or the deletion entry is smaller
than the first addition entry in the window. -/
def deletedAtIn (A D : TimeIndex) (lo hi : Int) : Prop :=
  ∃ d, tiFirst (tiRange D lo hi) = some d
    ∧ (tiRange A lo hi = []
        ∨ ∃ a, tiFirst (tiRange A lo hi) = some a ∧ tieLt d a = true)

/-- Specification side: a layer gets a synthetic exploded reference when
its first deletion precedes its first addition, or it has deletions but no
additions. -/
def syntheticLayer (A D : TimeIndex) : Bool :=
  match tiFirst D with
  | none => false
  | some d =>
    match tiFirst A with
    | none => true
    | some a => tieLt d a

/-- Specification side: the last write with time at most `u` (the value the
claim says the synthetic property tick carries). -/
def propLastLe (p : PropLog) (u : Int) : Option (TIE × String) :=
  propLastEntry (p.filter (fun x => decide (x.1.t ≤ u)))

theorem tiFirst_eq_none {A : TimeIndex} : tiFirst A = none ↔ A = [] := by
  cases A <;> simp [tiFirst]

theorem tieStart_le_iff {t : Int} {d : TIE} :
    tieLe (tieStart t) d = true ↔ t ≤ d.t := by
  simp only [tieLe, tieStart, decide_eq_true_eq]
  omega

theorem tiRange_intMin {A : TimeIndex} (t : Int) (hA : ∀ x ∈ A, intMin ≤ x.t) :
    tiRange A intMin t = A.filter (fun x => decide (x.t < t)) := by
  unfold tiRange
  apply List.filter_congr
  intro x hx
  simp [hA x hx]

theorem tiActive_iff (A : TimeIndex) (lo hi : Int) :
    tiActive A lo hi = true ↔ ∃ a ∈ A, lo ≤ a.t ∧ a.t < hi := by
  simp [tiActive, tiRange, List.isEmpty_iff, List.filter_eq_nil_iff]

theorem zipLongest_map_same {α β γ : Type} (f : α → β) (g : α → γ) (l : List α) :
    zipLongest (l.map f) (l.map g) = l.map (fun x => EitherOrBoth.both (f x) (g x)) := by
  induction l with
  | nil => rfl
  | cons x xs ih => simp [zipLongest, ih]

theorem edge_alive_at_start_eq_any (e : EdgeStore) (t : Int) (ls : LayerIds) :
    edge_alive_at_start e t ls
      = (selectLayers ls e).any (fun pr => alive_at pr.1 pr.2 t) := by
  unfold edge_alive_at_start additionsIter deletionsIter
  rw [zipLongest_map_same]
  generalize selectLayers ls e = L
  induction L with
  | nil => rfl
  | cons pr prs ih => simp only [List.map_cons, List.any_cons, ih]

theorem filterMap_syntheticLayer (L : List (Nat × TimeIndex × TimeIndex)) :
    L.filterMap (fun u =>
        match tiFirst u.2.1, tiFirst u.2.2 with
        | some a, some d => if tieLt d a then some u.1 else none
        | none, some _ => some u.1
        | _, _ => none)
      = (L.filter (fun u => syntheticLayer u.2.1 u.2.2)).map (fun u => u.1) := by
  induction L with
  | nil => rfl
  | cons u us ih =>
    rcases hA : tiFirst u.2.1 with _ | a <;> rcases hD : tiFirst u.2.2 with _ | d
    · simp [List.filterMap_cons, List.filter_cons, syntheticLayer, hA, hD, ih]
    · simp [List.filterMap_cons, List.filter_cons, syntheticLayer, hA, hD, ih]
    · simp [List.filterMap_cons, List.filter_cons, syntheticLayer, hA, hD, ih]
    · by_cases htl : tieLt d a = true <;>
        simp [List.filterMap_cons, List.filter_cons, syntheticLayer, hA, hD, htl, ih]

theorem flatMap_additions_length (L : List (Nat × TimeIndex × TimeIndex)) :
    (L.flatMap (fun u => u.2.1.map (fun a => (a, u.1)))).length
      = (L.map (fun u => u.2.1.length)).sum := by
  induction L with
  | nil => rfl
  | cons u us ih => simp [ih]

theorem alive_before_iff_cases (A D : TimeIndex) (t : Int)
    (hA : ∀ x ∈ A, intMin ≤ x.t) (hD : ∀ x ∈ D, intMin ≤ x.t) :
    alive_before A D t = true ↔ firstDelCase A D t ∨ lastBeforeGt A D t := by
  unfold alive_before
  simp only [tiRange_intMin t hA, tiRange_intMin t hD, Bool.or_eq_true]
  apply or_congr
  · rcases hFA : tiFirst A with _ | a <;> rcases hFD : tiFirst D with _ | d
    · simp [firstDelCase, hFD]
    · simp [firstDelCase, hFA, hFD, tieStart_le_iff, tiFirst_eq_none.mp hFA]
    · simp [firstDelCase, hFD]
    · have hAne : A ≠ [] := by
        intro h
        rw [h] at hFA
        simp [tiFirst] at hFA
      simp only [firstDelCase, hFD, Option.some.injEq, Bool.and_eq_true,
        tieStart_le_iff, hFA, hAne, false_or]
      constructor
      · rintro ⟨h1, h2⟩
        exact ⟨d, rfl, h2, a, rfl, h1⟩
      · rintro ⟨d2, hd2, h2, a2, ha2, h1⟩
        cases hd2
        cases ha2
        exact ⟨h1, h2⟩
  · exact Iff.rfl

/-- C1: for every additions index, deletions index (of i64 entries) and
query time, `alive_before` returns true iff the only-deleted case of the
claim holds (first deletion exists, is at least `t`, and the additions are
empty or the first deletion precedes the first addition), or the last
addition strictly before `t` is greater than the last deletion strictly
before `t`, an absent entry being smaller than any present one. -/
theorem c1_alive_before_spec (A D : TimeIndex) (t : Int)
    (hA : ∀ x ∈ A, intMin ≤ x.t) (hD : ∀ x ∈ D, intMin ≤ x.t) :
    alive_before A D t = true ↔ firstDelCase A D t ∨ lastBeforeGt A D t :=
  alive_before_iff_cases A D t hA hD

/-- Witness for `c1_alive_before_spec` at a concrete input. -/
theorem c1_alive_before_spec_witness :
    (∀ x ∈ ([⟨0, 0⟩] : TimeIndex), intMin ≤ x.t)
    ∧ (∀ x ∈ ([] : TimeIndex), intMin ≤ x.t)
    ∧ (alive_before [⟨0, 0⟩] [] 1 = true
        ↔ firstDelCase [⟨0, 0⟩] [] 1 ∨ lastBeforeGt [⟨0, 0⟩] [] 1) :=
  ⟨by decide, by decide, c1_alive_before_spec [⟨0, 0⟩] [] 1 (by decide) (by decide)⟩

/-- C2 counterexample: at `t = i64::MAX` the source computes the point
window with `t.saturating_add(1)`, so it is empty and a deletion entry at
`i64::MAX` is not seen as "deleted at t": `alive_at` returns true there,
while the claim (whose point window `[t, t+1)` contains the deletion)
demands false.  The claimed equivalence is therefore false at this input. -/
theorem c2_alive_at_counterexample :
    ¬ (alive_at [] [⟨intMax, 0⟩] intMax = true ↔
        ¬ deletedAtIn [] [⟨intMax, 0⟩] intMax (intMax + 1)
        ∧ (firstDelCase [] [⟨intMax, 0⟩] intMax
            ∨ lastBeforeGt [] [⟨intMax, 0⟩] intMax)) := by
  intro h
  have halive : alive_at [] [⟨intMax, 0⟩] intMax = true := by decide
  have hdel : deletedAtIn [] [⟨intMax, 0⟩] intMax (intMax + 1) :=
    ⟨⟨intMax, 0⟩, by decide, Or.inl rfl⟩
  exact (h.mp halive).1 hdel

/-- C2 amended: `alive_at` returns true iff the edge is not deleted at `t`
— with the point window `[t, t.saturating_add(1))`, which is `[t, t+1)` for
`t < i64::MAX` and empty at `t = i64::MAX` — and `alive_before` holds (in
its claim form, cf. `c1_alive_before_spec`). -/
theorem c2_alive_at_amended (A D : TimeIndex) (t : Int)
    (hA : ∀ x ∈ A, intMin ≤ x.t) (hD : ∀ x ∈ D, intMin ≤ x.t) :
    alive_at A D t = true ↔
      ¬ deletedAtIn A D t (satAdd1 t)
      ∧ (firstDelCase A D t ∨ lastBeforeGt A D t) := by
  unfold alive_at
  simp only [Bool.and_eq_true, Bool.not_eq_true']
  rw [alive_before_iff_cases A D t hA hD]
  apply and_congr _ Iff.rfl
  rcases hFD : tiFirst (tiRange D t (satAdd1 t)) with _ | d
  · simp only [deletedAtIn, hFD]
    simp
  · rcases hFA : tiFirst (tiRange A t (satAdd1 t)) with _ | a
    · simp [deletedAtIn, hFD, hFA, tiFirst_eq_none.mp hFA]
    · have hAne : tiRange A t (satAdd1 t) ≠ [] := by
        intro h
        rw [h] at hFA
        simp [tiFirst] at hFA
      simp only [deletedAtIn, hFD, hFA, Option.some.injEq, hAne, false_or]
      constructor
      · intro hlt
        rintro ⟨d2, hd2, h2⟩
        cases hd2
        rcases h2 with ⟨a2, ha2, h1⟩
        cases ha2
        rw [h1] at hlt
        cases hlt
      · intro hne
        by_contra hcon
        rw [Bool.not_eq_false] at hcon
        exact hne ⟨d, rfl, a, rfl, hcon⟩

/-- Witness for `c2_alive_at_amended` at a concrete input. -/
theorem c2_alive_at_amended_witness :
    (∀ x ∈ ([⟨1, 0⟩] : TimeIndex), intMin ≤ x.t)
    ∧ (∀ x ∈ ([⟨5, 1⟩] : TimeIndex), intMin ≤ x.t)
    ∧ (alive_at [⟨1, 0⟩] [⟨5, 1⟩] 3 = true ↔
        ¬ deletedAtIn [⟨1, 0⟩] [⟨5, 1⟩] 3 (satAdd1 3)
        ∧ (firstDelCase [⟨1, 0⟩] [⟨5, 1⟩] 3 ∨ lastBeforeGt [⟨1, 0⟩] [⟨5, 1⟩] 3)) :=
  ⟨by decide, by decide, c2_alive_at_amended [⟨1, 0⟩] [⟨5, 1⟩] 3 (by decide) (by decide)⟩

/-- C3: the persistent `include_edge_window` holds iff some selected layer
has an addition inside the window, or some selected layer is alive at the
window start with that same layer's additions paired with that same
layer's deletions — a disjunction over the selected layers. -/
theorem c3_include_edge_window_spec (e : EdgeStore) (ws we : Int) (ls : LayerIds) :
    include_edge_window e ws we ls = true ↔
      (∃ pr ∈ selectLayers ls e, ∃ a ∈ pr.1, ws ≤ a.t ∧ a.t < we)
      ∨ ∃ pr ∈ selectLayers ls e, alive_at pr.1 pr.2 ws = true := by
  unfold include_edge_window edgeActive
  rw [Bool.or_eq_true, edge_alive_at_start_eq_any]
  apply or_congr
  · simp [additionsIter, List.any_map, List.any_eq_true, tiActive_iff, Function.comp]
  · simp [List.any_eq_true]

/-- C5: `edge_exploded` yields one synthetic reference pinned at `i64::MIN`
for each selected layer whose first deletion precedes its first addition or
which has deletions but no additions, followed by one reference per real
addition entry; on the S6 edge (three deletions at `t = 1, 2, 3` on three
distinct layers, no additions) the full explosion has exactly three
references and the `[2, 3)` windowed explosion exactly one. -/
theorem c5_edge_exploded_spec :
    (∀ (e : EdgeStore) (ls : LayerIds),
      edge_exploded e ls =
          ((updatesIter ls e).filter (fun u => syntheticLayer u.2.1 u.2.2)).map
              (fun u => ((⟨intMin, 0⟩ : TIE), u.1))
            ++ eventEdgeExploded e ls
        ∧ (eventEdgeExploded e ls).length
            = ((updatesIter ls e).map (fun u => u.2.1.length)).sum)
    ∧ (edge_exploded edgeS6 .all).length = 3
    ∧ (edge_window_exploded edgeS6 2 3 .all).length = 1 := by
  refine ⟨fun e ls => ⟨?_, ?_⟩, by decide, by decide⟩
  · unfold edge_exploded
    rw [filterMap_syntheticLayer]
    simp [List.map_map, Function.comp]
  · exact flatMap_additions_length (updatesIter ls e)

/-- C6 counterexample: with the window start at `i64::MAX`, the source
computes the synthetic tick value as `last_before(MAX.saturating_add(1))`,
i.e. the last write strictly before `i64::MAX`, not the last write with
time at most the start as the claim states.  With a write at `i64::MAX`
and an edge alive there, the source emits `"a"` while the claim demands
`"b"`. -/
theorem c6_temporal_prop_window_counterexample :
    temporal_edge_prop_vec_window edgeAliveAtMax propAtMax intMax intMax .all
        = [(intMax, "a")]
    ∧ edge_alive_at_start edgeAliveAtMax intMax .all = true
    ∧ ((propLastLe propAtMax intMax).map (fun x => ((intMax : Int), x.2))).toList
          ++ (propIterWindow propAtMax (intMax + 1) intMax).map (fun x => (x.1.t, x.2))
        = [(intMax, "b")]
    ∧ ([((intMax : Int), "a")] : List (Int × String)) ≠ [(intMax, "b")] := by
  refine ⟨by decide, by decide, by decide, by decide⟩

/-- C6 amended: when some selected layer is alive at the window start the
windowed property log is a synthetic tick at `start` carrying the last
value with write-time below `start.saturating_add(1)` (that is, `≤ start`
whenever `start < i64::MAX`), followed by the writes in
`[start.saturating_add(1), stop)`; otherwise it is exactly the writes in
`[start, stop)`.  On the S5 edge the `[10, 12)` log is
`[(10, "a"), (11, "b")]`. -/
theorem c6_temporal_prop_window_amended :
    (∀ (e : EdgeStore) (p : PropLog) (start stop : Int) (ls : LayerIds),
      temporal_edge_prop_vec_window e p start stop ls =
        if (selectLayers ls e).any (fun pr => alive_at pr.1 pr.2 start) then
          ((propLastBefore p (satAdd1 start)).map (fun x => (start, x.2))).toList
            ++ (propIterWindow p (satAdd1 start) stop).map (fun x => (x.1.t, x.2))
        else (propIterWindow p start stop).map (fun x => (x.1.t, x.2)))
    ∧ temporal_edge_prop_vec_window edgeS5 propS5 10 12 .all
        = [(10, "a"), (11, "b")] := by
  constructor
  · intro e p start stop ls
    unfold temporal_edge_prop_vec_window
    rw [edge_alive_at_start_eq_any]
  · decide

/-- C7, scenario S2: after `delete_edge(10, 3, 4)` with no prior addition,
the edge's earliest time is `i64::MIN`, its latest time is `10`, it is
included in the window `[0, 5)` and excluded from the window `[11, 12)`. -/
theorem c7_preexisting_edge_scenario :
    edge_earliest_time none edgeS2 .all = some intMin
    ∧ edge_latest_time none edgeS2 .all = some 10
    ∧ include_edge_window edgeS2 0 5 .all = true
    ∧ include_edge_window edgeS2 11 12 .all = false := by
  refine ⟨by decide, by decide, by decide, by decide⟩

/-- C4 divergence: on a two-layer edge with one addition at `t = 0` per
layer and no deletions, the `LayerIds::Multiple` branch of
`edge_exploded_count_window` over the window `[-5, -4)` returns the
unwindowed count `2`, while the claimed per-layer sum
`|A ∩ w| + (1 if alive_at(A, D, w.start))` is `0` — the source's
`Multiple` branch delegates to the unwindowed `edge_exploded_count`
instead of windowing each layer as the `All` branch does. -/
theorem c4_exploded_count_window_multiple_bug :
    edge_exploded_count_window 2 edgeTwoLayers (.multiple [0, 1]) (-5) (-4) = 2
    ∧ (([0, 1] : List Nat).map (fun i =>
          (tiRange (getAdditions edgeTwoLayers i) (-5) (-4)).length
            + (if alive_at (getAdditions edgeTwoLayers i)
                  (getDeletions edgeTwoLayers i) (-5) then 1 else 0))).sum = 0 := by
  refine ⟨by decide, by decide⟩

/-- C8 counterexample: `DefaultTVec::insert` on the `Empty` state is an
explicit `panic!` (embedded as `none`), so the operation does not complete
for every state and index as the claim states. -/
theorem c8_insert_empty_panics :
    DefaultTVec.insert (DefaultTVec.empty : DefaultTVec Nat) 0 0 0 = none := rfl

/-- C8 amended: `insert(t, v, i)` panics exactly on the `Empty` state (an
explicit assertion) and on the `Vec` state when `i` is out of bounds of the
slot vector; in the `One` state it always completes. -/
theorem c8_insert_none_iff {α : Type} (tv : DefaultTVec α) (t : Nat) (a : α)
    (i : Nat) :
    DefaultTVec.insert tv t a i = none ↔
      tv = DefaultTVec.empty
      ∨ ∃ vs tIndex, tv = DefaultTVec.vec vs tIndex ∧ vs.length ≤ i := by
  cases tv with
  | empty => simp [DefaultTVec.insert]
  | one c => simp [DefaultTVec.insert]
  | vec vs tIndex =>
    by_cases h : i < vs.length
    · simp only [DefaultTVec.insert, dif_pos h]
      simp only [DefaultTVec.vec.injEq, reduceCtorEq, false_or]
      constructor
      · intro hcon
        cases hcon
      · rintro ⟨vs2, ti2, ⟨hvs, _⟩, hlen⟩
        subst hvs
        omega
    · simp only [DefaultTVec.insert, dif_neg h]
      simp only [DefaultTVec.vec.injEq, reduceCtorEq, false_or, true_iff]
      exact ⟨vs, tIndex, ⟨rfl, rfl⟩, by omega⟩

/-- C9: the persistent `include_node_window` holds iff the node's first
timestamp exists and is at most the window end (so a node whose first
event is exactly at the exclusive end is still included), and the layer
selection has no effect. -/
theorem c9_include_node_window_spec :
    (∀ (ts : TimeIndex) (ws we : Int) (ls : LayerIds),
      include_node_window ts ws we ls = true ↔ ∃ f, tiFirstT ts = some f ∧ f ≤ we)
    ∧ (∀ (ts : TimeIndex) (ws we : Int) (ls ls2 : LayerIds),
      include_node_window ts ws we ls = include_node_window ts ws we ls2)
    ∧ include_node_window [⟨5, 0⟩] 0 5 .all = true := by
  refine ⟨?_, fun ts ws we ls ls2 => rfl, by decide⟩
  intro ts ws we ls
  unfold include_node_window
  rcases h : tiFirstT ts with _ | f <;> simp [h]

/-- C10: on the `One` state, `DefaultTVec::insert` ignores the index
argument entirely and appends `(t, v)` as a new version of the single slot
without error; the resulting state is again `One`, which records no
secondary `t_index` entry. -/
theorem c10_insert_one_ignores_index {α : Type} (c : TCell α) (t : Nat)
    (a : α) (i j : Nat) :
    DefaultTVec.insert (DefaultTVec.one c) t a i
        = some (DefaultTVec.one (TCell.set c t a))
    ∧ DefaultTVec.insert (DefaultTVec.one c) t a i
        = DefaultTVec.insert (DefaultTVec.one c) t a j :=
  ⟨rfl, rfl⟩
